import Mathlib

/-!
# Kari catalogue scraper: field parsers, item extractor, page loop, store set-up

A shallow embedding of `main.go`.  A Go `string` holding well-formed UTF-8 text
is represented by the list of its code points (`List Char`); a Go result pair
`(int, error)` is represented by `Int × Option NumError`, the second component
being `none` for a `nil` error.  The Go type `int` is taken to be 64 bits wide.

The functions of the Go standard library that the program calls
(`strings.TrimRight`, `strings.TrimSpace`, `strings.ReplaceAll`, `strings.Map`,
`strconv.Atoi`, `strconv.Itoa`) are embedded next to the functions of the
program, following the control flow of their Go implementation.
-/

namespace Kari

/-! ## Strings -/

/-- The non-breaking space U+00A0, written with the escape `\u00a0` in the source. -/
def nbsp : Char := Char.ofNat 0xA0

/-- The rouble sign, the currency marker of the catalogue pages. -/
def rouble : Char := Char.ofNat 0x20BD

/-- Number of bytes of the UTF-8 encoding, the value of Go's `len(s)`. -/
def byteLen (s : List Char) : Nat :=
  (s.map fun c => c.utf8Size).sum

/-- Go's `unicode.IsSpace`: the Latin-1 spaces and the code points of category Z
that have the White_Space property. -/
def isSpace (r : Char) : Bool :=
  let n := r.toNat
  if n ≤ 0xFF then
    n == 0x09 || n == 0x0A || n == 0x0B || n == 0x0C || n == 0x0D || n == 0x20 ||
      n == 0x85 || n == 0xA0
  else
    n == 0x1680 || (0x2000 ≤ n && n ≤ 0x200A) || n == 0x2028 || n == 0x2029 ||
      n == 0x202F || n == 0x205F || n == 0x3000

/-- Go's `strings.TrimRight(s, cutset)`: drops the trailing code points that occur
in `cutset`. -/
def TrimRight (s cutset : List Char) : List Char :=
  s.rdropWhile fun c => cutset.contains c

/-- Go's `strings.TrimSpace(s)`: drops leading and trailing white space. -/
def TrimSpace (s : List Char) : List Char :=
  (s.dropWhile isSpace).rdropWhile isSpace

/-- Whether `p` is an initial segment of `s` (Go's `strings.HasPrefix`). -/
def startsWith : List Char → List Char → Bool
  | [], _ => true
  | _ :: _, [] => false
  | a :: p, b :: s => a == b && startsWith p s

/-- Scan of `strings.ReplaceAll` for a non-empty `old`: `skip` counts the
characters of a match that are still to be passed over. -/
def replaceScan (old new : List Char) : List Char → Nat → List Char
  | [], _ => []
  | _ :: t, skip + 1 => replaceScan old new t skip
  | c :: t, 0 =>
    if startsWith old (c :: t) then new ++ replaceScan old new t (old.length - 1)
    else c :: replaceScan old new t 0

/-- Go's `strings.ReplaceAll(s, old, new)`: every non-overlapping occurrence of
`old`, from the left, is replaced by `new`; an empty `old` matches before every
code point and at the end. -/
def ReplaceAll (s old new : List Char) : List Char :=
  if old.isEmpty then new ++ s.flatMap (fun c => c :: new)
  else replaceScan old new s 0

/-- Go's `strings.Map(mapping, s)`: `none` stands for a negative result of the
mapping, which drops the code point. -/
def Map (mapping : Char → Option Char) (s : List Char) : List Char :=
  s.filterMap mapping

/-! ## `strconv` -/

/-- The two errors `strconv` reports through `*NumError`. -/
inductive NumError where
  | ErrSyntax
  | ErrRange
  deriving DecidableEq

/-- Width of Go's `int`. -/
def intSize : Nat := 64

/-- Largest `uint64`. -/
def maxUint64 : Nat := 2 ^ 64 - 1

/-- Conversion `int64(u)` of a `uint64`: two's complement reinterpretation. -/
def toInt64 (u : Nat) : Int :=
  if u % 2 ^ 64 < 2 ^ 63 then ((u % 2 ^ 64 : Nat) : Int) else ((u % 2 ^ 64 : Nat) : Int) - 2 ^ 64

/-- Negation of an `int64`, wrapping at the width. -/
def negInt64 (n : Int) : Int :=
  toInt64 ((-n) % 2 ^ 64).toNat

/-- Value of a decimal digit character (`ch - '0'`). -/
def digitVal (c : Char) : Nat := c.toNat - 48

/-- The digit loop of the fast path of `strconv.Atoi`; `none` is the syntax
error raised at the first byte outside `'0'..'9'`. -/
def atoiFast : List Char → Int → Option Int
  | [], n => some n
  | ch :: rest, n =>
    if ch.isDigit then atoiFast rest (n * 10 + (digitVal ch : Nat)) else none

/-- The digit loop of `strconv.ParseUint` for base 10 and bit size 64. -/
def parseUintLoop : List Char → Nat → Nat × Option NumError
  | [], n => (n, none)
  | c :: rest, n =>
    if c.isDigit then
      if n ≥ maxUint64 / 10 + 1 then (maxUint64, some NumError.ErrRange)
      else
        let n10 := n * 10 % 2 ^ 64
        let n1 := (n10 + digitVal c) % 2 ^ 64
        if n1 < n10 ∨ n1 > maxUint64 then (maxUint64, some NumError.ErrRange)
        else parseUintLoop rest n1
    else (0, some NumError.ErrSyntax)

/-- Go's `strconv.ParseUint(s, 10, 0)`. -/
def ParseUint (s : List Char) : Nat × Option NumError :=
  if s.isEmpty then (0, some NumError.ErrSyntax) else parseUintLoop s 0

/-- Go's `strconv.ParseInt(s, 10, 0)`. -/
def ParseInt (s : List Char) : Int × Option NumError :=
  match s with
  | [] => (0, some NumError.ErrSyntax)
  | c :: t =>
    let neg := c == '-'
    let s1 := if c == '+' then t else if c == '-' then t else c :: t
    match ParseUint s1 with
    | (_, some NumError.ErrSyntax) => (0, some NumError.ErrSyntax)
    | (un, _) =>
      let cutoff : Nat := 2 ^ (intSize - 1)
      if !neg && un ≥ cutoff then (((cutoff - 1 : Nat) : Int), some NumError.ErrRange)
      else if neg && un > cutoff then (-(cutoff : Int), some NumError.ErrRange)
      else
        let n := toInt64 un
        (if neg then negInt64 n else n, none)

/-- Go's `strconv.Atoi(s)`. -/
def Atoi (s : List Char) : Int × Option NumError :=
  let sLen := byteLen s
  if 0 < sLen ∧ sLen < 19 then
    match s with
    | [] => (0, some NumError.ErrSyntax)
    | c :: t =>
      let body := if c == '-' || c == '+' then t else c :: t
      if body.length < 1 then (0, some NumError.ErrSyntax)
      else
        match atoiFast body 0 with
        | none => (0, some NumError.ErrSyntax)
        | some n => (if c == '-' then -n else n, none)
  else ParseInt s

/-- Digits of `strconv.Itoa` for a non-negative value, least significant digit
produced first and consed in front of `acc`; `fuel` bounds the number of
divisions. -/
def formatDigits : Nat → Nat → List Char → List Char
  | 0, _, acc => acc
  | fuel + 1, u, acc =>
    let acc1 := Char.ofNat (48 + u % 10) :: acc
    if u / 10 = 0 then acc1 else formatDigits fuel (u / 10) acc1

/-- Go's `strconv.Itoa(n)`: the decimal rendering, with `'-'` in front of a
negative value. -/
def Itoa (n : Int) : List Char :=
  if n < 0 then '-' :: formatDigits (n.natAbs + 1) n.natAbs []
  else formatDigits (n.natAbs + 1) n.natAbs []

/-! ## The field parsers of `main.go` -/

/-- The function `parseDiscountToInt`. -/
def parseDiscountToInt (discountStr : List Char) : Int × Option NumError :=
  let discountStr := TrimSpace (TrimRight discountStr ['%'])
  match Atoi discountStr with
  | (_, some err) => (0, some err)
  | (discountInt, none) => (discountInt, none)

/-- The function `parsePrice`. -/
def parsePrice (priceStr : List Char) : Int × Option NumError :=
  let cleanedPriceStr := ReplaceAll priceStr [','] []
  let cleanedPriceStr := ReplaceAll cleanedPriceStr [nbsp] []
  let cleanedPriceStr := TrimSpace cleanedPriceStr
  match Atoi cleanedPriceStr with
  | (_, some err) => (0, some err)
  | (price, none) => (price, none)

/-- The function `parseReviewsCountToInt`. -/
def parseReviewsCountToInt (reviewsCountStr : List Char) : Int × Option NumError :=
  let reviewsCountStr := TrimSpace (Map (fun r => if '0' ≤ r ∧ r ≤ '9' then some r else none)
    reviewsCountStr)
  match Atoi reviewsCountStr with
  | (_, some err) => (0, some err)
  | (reviewsCountInt, none) => (reviewsCountInt, none)

/-! ## Notions used to state the properties -/

/-- The natural number denoted by a string of decimal digits, read after the
value `n` of the digits to its left. -/
def decimalFrom (n : Nat) (ds : List Char) : Nat :=
  ds.foldl (fun acc c => acc * 10 + digitVal c) n

/-- The base-10 integer denoted by a string of decimal digits. -/
def decimalValue (ds : List Char) : Nat := decimalFrom 0 ds

/-- Digit groups written with a comma between neighbours: `digits[,digits]*`. -/
def joinGroups : List (List Char) → List Char
  | [] => []
  | [g] => g
  | g :: g2 :: gs => g ++ ',' :: joinGroups (g2 :: gs)

/-- A non-empty list of non-empty groups of decimal digits. -/
def DigitGroups (gs : List (List Char)) : Prop :=
  gs ≠ [] ∧ ∀ g ∈ gs, g ≠ [] ∧ ∀ c ∈ g, c.isDigit = true

/-- The cleaned price text in the words of the specification: every comma and
every U+00A0 deleted, then leading and trailing white space trimmed. -/
def cleanedText (s : List Char) : List Char :=
  TrimSpace ((s.filter fun c => c ≠ ',').filter fun c => c ≠ nbsp)

/-- A text without its one optional leading sign. -/
def dropSign : List Char → List Char
  | [] => []
  | c :: t => if c = '+' ∨ c = '-' then t else c :: t

/-! ## The item callback of `main` -/

/-- The texts the selectors of the item callback yield on one item container:
`ChildText` of the six field selectors and the `Text` of every element matching
the promotions selector, in document order. -/
structure HTMLElement where
  brand : List Char
  name : List Char
  originalPrice : List Char
  discount : List Char
  discountedPrice : List Char
  reviewsCount : List Char
  promotions : List (List Char)

/-- A value stored under a key of the inserted `map[string]interface{}`. -/
inductive Value where
  | str (s : List Char)
  | int (n : Int)
  | strs (l : List (List Char))
  deriving DecidableEq

/-- The inner map stored under the key `"price"`. -/
structure PriceDocument where
  original_price : Value
  discount : Value
  discounted_price : Value
  deriving DecidableEq

/-- The map handed to `InsertOne`, one field per key. -/
structure Document where
  brand : Value
  name : Value
  price : PriceDocument
  reviews_count : Value
  promotions : Value
  deriving DecidableEq

/-- The observable steps of one run of the item callback. -/
inductive Event where
  | wgAdd
  | wgDone
  | logPrintf (format : String) (err : NumError)
  | printf (format : String) (arg : Value)
  | lock
  | unlock
  | insertOne (document : Document)
  | logPrintln (msg : String)
  deriving DecidableEq

/-- The body of the goroutine started by the item callback; `insertFails` is
the answer of the store to `InsertOne`. -/
def itemWorker (e : HTMLElement) (insertFails : Bool) : List Event :=
  let brand := e.brand
  let name := e.name
  let originalPriceStr := TrimRight e.originalPrice [' ', rouble]
  let discountStr := e.discount
  let discountedPriceStr := TrimRight e.discountedPrice [' ', rouble]
  let reviewsCount := e.reviewsCount
  match parsePrice originalPriceStr with
  | (_, some err) => [Event.logPrintf "Error parsing original price: %v" err]
  | (originalPrice, none) =>
    match parseDiscountToInt discountStr with
    | (_, some err) => [Event.logPrintf "Error parsing discount: %v" err]
    | (discountInt, none) =>
      match parsePrice discountedPriceStr with
      | (_, some err) => [Event.logPrintf "Error parsing discounted price: %v" err]
      | (discountedPrice, none) =>
        match parseReviewsCountToInt reviewsCount with
        | (_, some err) => [Event.logPrintf "Error parsing reviews count: %v" err]
        | (reviewsCountInt, none) =>
          let promotions := e.promotions
          [Event.printf "Brand: %s\n" (Value.str brand),
            Event.printf "Name: %s\n" (Value.str name),
            Event.printf "Original Price: %d\n" (Value.int originalPrice),
            Event.printf "Discount: %d\n" (Value.int discountInt),
            Event.printf "Discounted Price: %d\n" (Value.int discountedPrice),
            Event.printf "Reviews Count: %d\n" (Value.int reviewsCountInt),
            Event.printf "Promotions: %v\n" (Value.strs promotions),
            Event.lock,
            Event.insertOne
              { brand := Value.str brand
                name := Value.str name
                price :=
                  { original_price := Value.int originalPrice
                    discount := Value.str discountStr
                    discounted_price := Value.int discountedPrice }
                reviews_count := Value.str reviewsCount
                promotions := Value.strs promotions },
            Event.unlock] ++
          (if insertFails then [Event.logPrintln "Error inserting data into MongoDB:"] else [])

/-- The callback registered with `OnHTML`: the wait group is incremented, the
goroutine runs, and its deferred `wg.Done` comes last. -/
def onItem (e : HTMLElement) (insertFails : Bool) : List Event :=
  Event.wgAdd :: (itemWorker e insertFails ++ [Event.wgDone])

/-- The documents handed to the store in a trace. -/
def inserts : List Event → List Document
  | [] => []
  | Event.insertOne d :: t => d :: inserts t
  | _ :: t => inserts t

/-- The lines written to the log in a trace. -/
def logs : List Event → List Event
  | [] => []
  | Event.logPrintf f err :: t => Event.logPrintf f err :: logs t
  | Event.logPrintln m :: t => Event.logPrintln m :: logs t
  | _ :: t => logs t

/-- The four numeric fields in the order the extractor parses them, each with the
log format of its failure and the result of its parser. -/
def fieldResults (e : HTMLElement) : List (String × (Int × Option NumError)) :=
  [("Error parsing original price: %v", parsePrice (TrimRight e.originalPrice [' ', rouble])),
    ("Error parsing discount: %v", parseDiscountToInt e.discount),
    ("Error parsing discounted price: %v",
      parsePrice (TrimRight e.discountedPrice [' ', rouble])),
    ("Error parsing reviews count: %v", parseReviewsCountToInt e.reviewsCount)]

/-- All four numeric fields parse. -/
def allParse (e : HTMLElement) : Prop :=
  ∀ r ∈ fieldResults e, r.2.2 = none

instance (e : HTMLElement) : Decidable (allParse e) := by
  unfold allParse
  infer_instance

/-- The first field that fails to parse, with its error. -/
def firstFailure (e : HTMLElement) : Option (String × NumError) :=
  (fieldResults e).findSome? fun r => r.2.2.map fun err => (r.1, err)

/-- The well-formed item of the end-to-end scenario. -/
def acmeItem : HTMLElement :=
  { brand := "Acme".toList
    name := "Runner X".toList
    originalPrice := "5,000 ₽".toList
    discount := "10%".toList
    discountedPrice := "4,500 ₽".toList
    reviewsCount := "42".toList
    promotions := ["Sale".toList] }

/-- The second item of the end-to-end scenario: the discounted price does not
parse. -/
def brokenItem : HTMLElement :=
  { acmeItem with discountedPrice := "n/a".toList }

/-! ## The page loop of `main` -/

/-- The observable steps of the page loop. -/
inductive LoopEvent where
  | visit (url : List Char)
  | logPrintln (msg : String)
  | sleep (seconds : Nat)
  deriving DecidableEq

/-- The value of `totalPages` in `main`. -/
def totalPages : Nat := 172

/-- The URL built by `fmt.Sprintf` for a page number. -/
def pageURL (page : Nat) : List Char :=
  "https://kari.com/catalog/muzhchinam/muzhskaya-obuv/?page=".toList ++ Itoa (page : Int)

/-- The loop `for page := 1; page <= totalPages; page++` from the value `page`
of the counter on; `visitFails` tells whether `c.Visit` returns an error for a
URL, and `fuel` bounds the number of iterations. -/
def pageLoopFrom (visitFails : List Char → Bool) (totalPages : Nat) :
    Nat → Nat → List LoopEvent
  | 0, _ => []
  | fuel + 1, page =>
    if page ≤ totalPages then
      let url := pageURL page
      [LoopEvent.visit url] ++
        (if visitFails url then [LoopEvent.logPrintln "Error visiting URL:"] else []) ++
        [LoopEvent.sleep 2] ++
        pageLoopFrom visitFails totalPages fuel (page + 1)
    else []

/-- The page loop of `main` for a given page count; the counter starts at 1 and
the loop is left when it exceeds `totalPages`, which `totalPages + 1`
iterations always reach. -/
def pageLoop (visitFails : List Char → Bool) (totalPages : Nat) : List LoopEvent :=
  pageLoopFrom visitFails totalPages (totalPages + 1) 1

/-- The URLs on which `Visit` is called in a trace, in order. -/
def visits : List LoopEvent → List (List Char)
  | [] => []
  | LoopEvent.visit url :: t => url :: visits t
  | _ :: t => visits t

/-! ## Store set-up -/

/-- A `*mongo.Client` that is not nil. -/
structure Client where
  uri : List Char
  connected : Bool
  deriving DecidableEq

/-- A `*mongo.Collection` that is not nil, with the client it was obtained from. -/
structure Collection where
  client : Client
  database : List Char
  name : List Char
  deriving DecidableEq

/-- The package variables `client` and `shoesCollection`; `none` is `nil`. -/
structure Globals where
  client : Option Client
  shoesCollection : Option Collection
  deriving DecidableEq

/-- The package variables before `init` runs. -/
def zeroGlobals : Globals := { client := none, shoesCollection := none }

/-- The function `initMongoDB`; `newClientFails` and `connectFails` are the
answers of the driver, and `none` is the process exit of `log.Fatal`.  The short
variable declaration `client, err := mongo.NewClient(...)` introduces a variable
`client` local to the function, so the package variable `client` is not
assigned; `shoesCollection = ...` assigns the package variable. -/
def initMongoDB (newClientFails connectFails : Bool) (g : Globals) : Option Globals :=
  let client : Client := { uri := "mongodb://localhost:27017".toList, connected := false }
  if newClientFails then none
  else
    if connectFails then none
    else
      let client : Client := { client with connected := true }
      some { g with
        shoesCollection :=
          some { client := client, database := "shoe_shop".toList, name := "shoes".toList } }

/-- The receiver of `client.Disconnect` in `main`: the package variable. -/
def disconnectReceiver (g : Globals) : Option Client := g.client

/-! ## Lemmas -/

theorem isDigit_iff (c : Char) : c.isDigit = true ↔ 48 ≤ c.toNat ∧ c.toNat ≤ 57 := by
  unfold Char.isDigit Char.toNat
  simp only [Bool.and_eq_true, decide_eq_true_eq, ge_iff_le, UInt32.le_def, Fin.le_def]
  rfl

theorem ne_of_toNat_ne {a b : Char} (h : a.toNat ≠ b.toNat) : a ≠ b := by
  intro e; exact h (by rw [e])

theorem isDigit_not_space {c : Char} (h : c.isDigit = true) : isSpace c = false := by
  rw [isDigit_iff] at h
  unfold isSpace
  simp only [beq_iff_eq]
  have h1 : c.toNat ≤ 0xFF := by omega
  simp [h1]
  omega

theorem isDigit_utf8Size {c : Char} (h : c.isDigit = true) : c.utf8Size = 1 := by
  rw [isDigit_iff] at h
  unfold Char.utf8Size
  have : c.val ≤ 127 := by
    show c.val.val ≤ (127 : UInt32).val
    rw [Fin.le_def]
    show c.toNat ≤ 127
    omega
  simp [this]

theorem le_iff_isDigit (c : Char) : ('0' ≤ c ∧ c ≤ '9') ↔ c.isDigit = true := by
  rw [isDigit_iff]
  show ('0'.val ≤ c.val ∧ c.val ≤ '9'.val) ↔ _
  simp only [UInt32.le_def, Fin.le_def]
  rfl

theorem decimalFrom_nil (n : Nat) : decimalFrom n [] = n := rfl

theorem decimalFrom_cons (n : Nat) (c : Char) (ds : List Char) :
    decimalFrom n (c :: ds) = decimalFrom (n * 10 + digitVal c) ds := rfl

theorem digitVal_le {c : Char} (h : c.isDigit = true) : digitVal c ≤ 9 := by
  rw [isDigit_iff] at h
  unfold digitVal
  omega

theorem le_decimalFrom (ds : List Char) : ∀ n, n ≤ decimalFrom n ds := by
  induction ds with
  | nil => intro n; exact Nat.le_refl _
  | cons c ds ih =>
    intro n
    rw [decimalFrom_cons]
    exact Nat.le_trans (by omega) (ih _)

theorem decimalFrom_lt (ds : List Char) (hd : ∀ c ∈ ds, c.isDigit = true) :
    ∀ n, decimalFrom n ds < (n + 1) * 10 ^ ds.length := by
  induction ds with
  | nil => intro n; simp [decimalFrom]
  | cons c ds ih =>
    intro n
    rw [decimalFrom_cons]
    have h1 := ih (fun x hx => hd x (List.mem_cons_of_mem _ hx)) (n * 10 + digitVal c)
    have h2 := digitVal_le (hd c (List.mem_cons_self _ _))
    have h3 : (n * 10 + digitVal c + 1) * 10 ^ ds.length ≤ (n + 1) * 10 ^ (c :: ds).length := by
      rw [List.length_cons, pow_succ, ← Nat.mul_assoc, Nat.mul_right_comm]
      apply Nat.mul_le_mul_right
      omega
    omega

theorem atoiFast_digits (ds : List Char) (hd : ∀ c ∈ ds, c.isDigit = true) :
    ∀ n : Nat, atoiFast ds (n : Int) = some ((decimalFrom n ds : Nat) : Int) := by
  induction ds with
  | nil => intro n; rfl
  | cons c ds ih =>
    intro n
    have hc := hd c (List.mem_cons_self _ _)
    have := ih (fun x hx => hd x (List.mem_cons_of_mem _ hx)) (n * 10 + digitVal c)
    simp only [atoiFast, hc, if_true, decimalFrom_cons]
    rw [← this]
    push_cast
    rfl

theorem atoiFast_nondigit (s : List Char) (h : ∃ c ∈ s, c.isDigit = false) :
    ∀ n, atoiFast s n = none := by
  induction s with
  | nil => obtain ⟨c, hc, _⟩ := h; cases hc
  | cons a s ih =>
    intro n
    by_cases ha : a.isDigit = true
    · simp only [atoiFast, ha, if_true]
      apply ih
      obtain ⟨c, hc, hcd⟩ := h
      rcases List.mem_cons.mp hc with rfl | hc
      · rw [ha] at hcd; cases hcd
      · exact ⟨c, hc, hcd⟩
    · simp [atoiFast, ha]

theorem parseUintLoop_digits (ds : List Char) (hd : ∀ c ∈ ds, c.isDigit = true) :
    ∀ n, n < 2 ^ 64 → parseUintLoop ds n =
      if decimalFrom n ds < 2 ^ 64 then (decimalFrom n ds, none)
      else (maxUint64, some NumError.ErrRange) := by
  induction ds with
  | nil => intro n hn; rw [decimalFrom_nil, if_pos hn]; rfl
  | cons c ds ih =>
    intro n hn
    have hc := hd c (List.mem_cons_self _ _)
    have hv := digitVal_le hc
    have ih1 := ih (fun x hx => hd x (List.mem_cons_of_mem _ hx))
    have hmono := le_decimalFrom ds (n * 10 + digitVal c)
    rw [decimalFrom_cons]
    simp only [parseUintLoop, hc, if_true]
    by_cases h1 : n ≥ maxUint64 / 10 + 1
    · have : ¬ decimalFrom (n * 10 + digitVal c) ds < 2 ^ 64 := by
        simp only [maxUint64] at h1
        omega
      rw [if_pos h1, if_neg this]
    · rw [if_neg h1]
      have hn10 : n * 10 < 2 ^ 64 := by
        simp only [maxUint64] at h1
        omega
      rw [Nat.mod_eq_of_lt hn10]
      by_cases h2 : n * 10 + digitVal c < 2 ^ 64
      · rw [Nat.mod_eq_of_lt h2]
        have h3 : ¬ (n * 10 + digitVal c < n * 10 ∨ n * 10 + digitVal c > maxUint64) := by
          simp only [maxUint64]
          omega
        rw [if_neg h3]
        exact ih1 _ h2
      · have h3 : (n * 10 + digitVal c) % 2 ^ 64 < n * 10 ∨
            (n * 10 + digitVal c) % 2 ^ 64 > maxUint64 := by
          left
          omega
        have : ¬ decimalFrom (n * 10 + digitVal c) ds < 2 ^ 64 := by omega
        rw [if_pos h3, if_neg this]

theorem parseUintLoop_err (s : List Char) (h : ∃ c ∈ s, c.isDigit = false) :
    ∀ n, parseUintLoop s n = (0, some NumError.ErrSyntax) ∨
      parseUintLoop s n = (maxUint64, some NumError.ErrRange) := by
  induction s with
  | nil => obtain ⟨c, hc, _⟩ := h; cases hc
  | cons a s ih =>
    intro n
    by_cases ha : a.isDigit = true
    · have ih1 : ∀ n, parseUintLoop s n = (0, some NumError.ErrSyntax) ∨
          parseUintLoop s n = (maxUint64, some NumError.ErrRange) := by
        apply ih
        obtain ⟨c, hc, hcd⟩ := h
        rcases List.mem_cons.mp hc with rfl | hc
        · rw [ha] at hcd; cases hcd
        · exact ⟨c, hc, hcd⟩
      simp only [parseUintLoop, ha, if_true]
      split
      · right; rfl
      · split
        · right; rfl
        · exact ih1 _
    · left
      simp [parseUintLoop, ha]

theorem utf8Size_pos (c : Char) : 1 ≤ c.utf8Size := by
  exact Char.utf8Size_pos c

theorem length_le_byteLen (s : List Char) : s.length ≤ byteLen s := by
  induction s with
  | nil => exact Nat.le_refl _
  | cons c s ih =>
    have := utf8Size_pos c
    simp only [byteLen, List.map_cons, List.sum_cons, List.length_cons] at ih ⊢
    omega

theorem byteLen_digits (ds : List Char) (hd : ∀ c ∈ ds, c.isDigit = true) :
    byteLen ds = ds.length := by
  induction ds with
  | nil => rfl
  | cons c ds ih =>
    have h1 := isDigit_utf8Size (hd c (List.mem_cons_self _ _))
    have h2 := ih (fun x hx => hd x (List.mem_cons_of_mem _ hx))
    simp only [byteLen, List.map_cons, List.sum_cons, List.length_cons] at h2 ⊢
    omega

theorem isDigit_ne_minus {c : Char} (h : c.isDigit = true) : (c == '-') = false := by
  rw [isDigit_iff] at h
  rw [beq_eq_false_iff_ne]
  apply ne_of_toNat_ne
  have : ('-' : Char).toNat = 45 := rfl
  omega

theorem isDigit_ne_plus {c : Char} (h : c.isDigit = true) : (c == '+') = false := by
  rw [isDigit_iff] at h
  rw [beq_eq_false_iff_ne]
  apply ne_of_toNat_ne
  have : ('+' : Char).toNat = 43 := rfl
  omega

theorem toInt64_of_lt {u : Nat} (h : u < 2 ^ 63) : toInt64 u = (u : Int) := by
  unfold toInt64
  have h1 : u % 2 ^ 64 = u := Nat.mod_eq_of_lt (by omega)
  rw [h1, if_pos h]

theorem toInt64_range (u : Nat) : -(2 ^ 63 : Int) ≤ toInt64 u ∧ toInt64 u < 2 ^ 63 := by
  unfold toInt64
  have h1 : u % 2 ^ 64 < 2 ^ 64 := Nat.mod_lt _ (by norm_num)
  split <;> omega

theorem negInt64_range (n : Int) : -(2 ^ 63 : Int) ≤ negInt64 n ∧ negInt64 n < 2 ^ 63 :=
  toInt64_range _

theorem negInt64_toInt64 {u : Nat} (h : u ≤ 2 ^ 63) : negInt64 (toInt64 u) = -(u : Int) := by
  unfold negInt64 toInt64
  have h1 : u % 2 ^ 64 = u := Nat.mod_eq_of_lt (by omega)
  rw [h1]
  by_cases h2 : u < 2 ^ 63
  · rw [if_pos h2]
    by_cases h3 : u = 0
    · subst h3; rfl
    · have e : (-(u : Int)) % 2 ^ 64 = 2 ^ 64 - (u : Int) := by
        omega
      rw [e]
      have e2 : ((2 : Int) ^ 64 - (u : Int)).toNat = 2 ^ 64 - u := by omega
      rw [e2]
      have e3 : (2 ^ 64 - u) % 2 ^ 64 = 2 ^ 64 - u := Nat.mod_eq_of_lt (by omega)
      rw [e3]
      have e4 : ¬ (2 ^ 64 - u < 2 ^ 63) := by omega
      rw [if_neg e4]
      omega
  · have hu : u = 2 ^ 63 := by omega
    subst hu
    decide

theorem ParseUint_digits (ds : List Char) (hne : ds ≠ []) (hd : ∀ c ∈ ds, c.isDigit = true) :
    ParseUint ds = if decimalValue ds < 2 ^ 64 then (decimalValue ds, none)
      else (maxUint64, some NumError.ErrRange) := by
  unfold ParseUint
  cases ds with
  | nil => exact absurd rfl hne
  | cons c t =>
    simp only [List.isEmpty_cons, Bool.false_eq_true, if_false]
    exact parseUintLoop_digits _ hd 0 (by norm_num)

theorem Atoi_digits (ds : List Char) (hne : ds ≠ []) (hd : ∀ c ∈ ds, c.isDigit = true) :
    Atoi ds = if decimalValue ds < 2 ^ 63 then (((decimalValue ds : Nat) : Int), none)
      else (2 ^ 63 - 1, some NumError.ErrRange) := by
  cases ds with
  | nil => exact absurd rfl hne
  | cons c t =>
    have hc := hd c (List.mem_cons_self _ _)
    have hm := isDigit_ne_minus hc
    have hp := isDigit_ne_plus hc
    unfold Atoi
    by_cases hlen : 0 < byteLen (c :: t) ∧ byteLen (c :: t) < 19
    · simp only [hlen, and_self, if_true, hm, hp, Bool.or_self, Bool.false_eq_true, if_false]
      have h1 : ¬ ((c :: t).length < 1) := by simp
      rw [if_neg h1]
      have h2 := atoiFast_digits (c :: t) hd 0
      simp only [Nat.cast_zero] at h2
      rw [h2]
      have h3 := decimalFrom_lt (c :: t) hd 0
      rw [byteLen_digits _ hd] at hlen
      have h4 : 10 ^ (c :: t).length ≤ 10 ^ 18 :=
        Nat.pow_le_pow_right (by norm_num) (by omega)
      have h5 : decimalValue (c :: t) < 2 ^ 63 := by
        unfold decimalValue
        omega
      rw [if_pos h5]
      rfl
    · rw [if_neg hlen]
      unfold ParseInt
      simp only [hm, hp, if_false, Bool.false_eq_true]
      rw [ParseUint_digits _ hne hd]
      by_cases h64 : decimalValue (c :: t) < 2 ^ 64
      · rw [if_pos h64]
        by_cases h63 : decimalValue (c :: t) < 2 ^ 63
        · rw [if_pos h63]
          have : ¬ (decimalValue (c :: t) ≥ 2 ^ (intSize - 1)) := by
            simp only [intSize]; omega
          simp only [Bool.not_false, Bool.true_and, decide_eq_true_eq, this, if_false,
            Bool.false_and, Bool.false_eq_true]
          rw [toInt64_of_lt h63]
        · rw [if_neg h63]
          have : decimalValue (c :: t) ≥ 2 ^ (intSize - 1) := by
            simp only [intSize]; omega
          simp only [Bool.not_false, Bool.true_and, decide_eq_true_eq, this, if_true]
          simp only [intSize]
          norm_num
      · rw [if_neg h64]
        have h63 : ¬ decimalValue (c :: t) < 2 ^ 63 := by omega
        rw [if_neg h63]
        have : maxUint64 ≥ 2 ^ (intSize - 1) := by decide
        simp only [Bool.not_false, Bool.true_and, decide_eq_true_eq, this, if_true]
        simp only [intSize]
        norm_num

theorem Atoi_neg_digits (ds : List Char) (hne : ds ≠ []) (hd : ∀ c ∈ ds, c.isDigit = true)
    (hv : decimalValue ds ≤ 2 ^ 63) :
    Atoi ('-' :: ds) = (-((decimalValue ds : Nat) : Int), none) := by
  unfold Atoi
  by_cases hlen : 0 < byteLen ('-' :: ds) ∧ byteLen ('-' :: ds) < 19
  · simp only [hlen, and_self, if_true, beq_self_eq_true, Bool.true_or]
    have h1 : ¬ (ds.length < 1) := by
      cases ds with
      | nil => exact absurd rfl hne
      | cons c t => simp
    rw [if_neg h1]
    have h2 := atoiFast_digits ds hd 0
    simp only [Nat.cast_zero] at h2
    rw [h2]
    rfl
  · rw [if_neg hlen]
    unfold ParseInt
    have hmp : ('-' == '+') = false := by decide
    simp only [hmp, beq_self_eq_true, if_true, Bool.false_eq_true, if_false]
    rw [ParseUint_digits _ hne hd]
    have h64 : decimalValue ds < 2 ^ 64 := by omega
    rw [if_pos h64]
    have : ¬ (decimalValue ds > 2 ^ (intSize - 1)) := by
      simp only [intSize]; omega
    simp only [Bool.not_true, Bool.false_and, Bool.false_eq_true, if_false, Bool.true_and,
      decide_eq_true_eq, this, if_true]
    rw [negInt64_toInt64 hv]

theorem atoiFast_some_digits (s : List Char) (n m : Int) (h : atoiFast s n = some m) :
    ∀ c ∈ s, c.isDigit = true := by
  intro c hc
  by_contra hcd
  have := atoiFast_nondigit s ⟨c, hc, by simpa using hcd⟩ n
  rw [this] at h
  cases h

theorem ParseInt_ok_range (s : List Char) (n : Int) (h : ParseInt s = (n, none)) :
    -(2 ^ 63 : Int) ≤ n ∧ n < 2 ^ 63 := by
  unfold ParseInt at h
  cases s with
  | nil => simp at h
  | cons c t =>
    simp only at h
    split at h
    · simp at h
    · split at h
      · simp at h
      · split at h
        · simp at h
        · simp only [Prod.mk.injEq, and_true] at h
          rw [← h]
          split
          · exact negInt64_range _
          · exact toInt64_range _

theorem Atoi_ok_range (s : List Char) (n : Int) (h : Atoi s = (n, none)) :
    -(2 ^ 63 : Int) ≤ n ∧ n < 2 ^ 63 := by
  unfold Atoi at h
  by_cases hlen : 0 < byteLen s ∧ byteLen s < 19
  · simp only [hlen, and_self, if_true] at h
    cases s with
    | nil => simp at h
    | cons c t =>
      simp only at h
      have hlb : (if (c == '-' || c == '+') = true then t else c :: t).length ≤
          (c :: t).length := by
        split
        · simp
        · exact Nat.le_refl _
      generalize (if (c == '-' || c == '+') = true then t else c :: t) = body at h hlb
      split at h
      · simp at h
      · split at h
        · simp at h
        · rename_i m hm
          have hd := atoiFast_some_digits _ _ _ hm
          have h2 := atoiFast_digits _ hd 0
          simp only [Nat.cast_zero] at h2
          rw [h2] at hm
          have h3 := decimalFrom_lt _ hd 0
          have hbl := length_le_byteLen (c :: t)
          have h4 : 10 ^ body.length ≤ 10 ^ 18 :=
            Nat.pow_le_pow_right (by norm_num) (by omega)
          simp only [Option.some.injEq] at hm
          simp only [Prod.mk.injEq, and_true] at h
          rw [← h, ← hm]
          split <;> omega
  · rw [if_neg hlen] at h
    exact ParseInt_ok_range s n h

theorem replaceScan_single (c : Char) (s : List Char) :
    replaceScan [c] [] s 0 = s.filter (fun x => !(x == c)) := by
  induction s with
  | nil => rfl
  | cons x t ih =>
    by_cases hx : x = c
    · subst hx
      simp [replaceScan, startsWith, ih]
    · have h1 : (c == x) = false := by
        rw [beq_eq_false_iff_ne]; exact fun e => hx e.symm
      have h2 : (x == c) = false := by
        rw [beq_eq_false_iff_ne]; exact hx
      simp [replaceScan, startsWith, ih, h1, h2]

theorem ReplaceAll_single (s : List Char) (c : Char) :
    ReplaceAll s [c] [] = s.filter (fun x => !(x == c)) := by
  unfold ReplaceAll
  simp only [List.isEmpty_cons, Bool.false_eq_true, if_false]
  exact replaceScan_single c s

theorem rdropWhile_append_of_pos (p : Char → Bool) (l t : List Char)
    (h : ∀ x ∈ t, p x = true) : (l ++ t).rdropWhile p = l.rdropWhile p := by
  unfold List.rdropWhile
  rw [List.reverse_append, List.dropWhile_append_of_pos]
  intro a ha
  exact h a (List.mem_reverse.mp ha)

theorem rdropWhile_of_neg (p : Char → Bool) (l : List Char)
    (h : ∀ x ∈ l, p x = false) : l.rdropWhile p = l := by
  rw [List.rdropWhile_eq_self_iff]
  intro hl
  rw [h _ (List.getLast_mem hl)]
  exact Bool.false_ne_true

theorem dropWhile_of_neg (p : Char → Bool) (l : List Char)
    (h : ∀ x ∈ l, p x = false) : l.dropWhile p = l := by
  cases l with
  | nil => rfl
  | cons a t => simp [List.dropWhile, h a (List.mem_cons_self _ _)]

theorem TrimSpace_of_not_space (s : List Char) (h : ∀ x ∈ s, isSpace x = false) :
    TrimSpace s = s := by
  unfold TrimSpace
  rw [dropWhile_of_neg _ _ h, rdropWhile_of_neg _ _ h]

theorem TrimSpace_spaces_digits_spaces (l d r : List Char)
    (hl : ∀ x ∈ l, isSpace x = true) (hd : ∀ x ∈ d, x.isDigit = true)
    (hr : ∀ x ∈ r, isSpace x = true) : TrimSpace (l ++ (d ++ r)) = d := by
  unfold TrimSpace
  rw [List.dropWhile_append_of_pos hl]
  have hd2 : ∀ x ∈ d, isSpace x = false := fun x hx => isDigit_not_space (hd x hx)
  cases d with
  | nil =>
    rw [List.nil_append, List.dropWhile_eq_nil_iff.mpr hr]
    rfl
  | cons c t =>
    have : List.dropWhile isSpace (c :: t ++ r) = c :: t ++ r := by
      simp [List.dropWhile, hd2 c (List.mem_cons_self _ _)]
    rw [this, rdropWhile_append_of_pos _ _ _ hr, rdropWhile_of_neg _ _ hd2]

theorem isDigit_ne {c x : Char} (h : c.isDigit = true) (hx : x.toNat < 48 ∨ 57 < x.toNat) :
    (c == x) = false := by
  rw [isDigit_iff] at h
  rw [beq_eq_false_iff_ne]
  apply ne_of_toNat_ne
  omega

theorem isSpace_ne_comma {c : Char} (h : isSpace c = true) : (c == ',') = false := by
  rw [beq_eq_false_iff_ne]
  intro e
  subst e
  revert h
  decide

theorem filter_comma_joinGroups (gs : List (List Char))
    (h : ∀ g ∈ gs, ∀ c ∈ g, c.isDigit = true) :
    (joinGroups gs).filter (fun x => !(x == ',')) = gs.flatten := by
  have key : ∀ g : List Char, (∀ c ∈ g, c.isDigit = true) →
      g.filter (fun x => !(x == ',')) = g := by
    intro g hg
    rw [List.filter_eq_self]
    intro a ha
    rw [isDigit_ne (hg a ha) (by decide)]
    rfl
  induction gs with
  | nil => rfl
  | cons g rest ih =>
    have hg := key g (h g (List.mem_cons_self _ _))
    have ih1 := ih (fun g1 hg1 => h g1 (List.mem_cons_of_mem _ hg1))
    cases rest with
    | nil => simp [joinGroups, hg]
    | cons g2 gs =>
      simp only [joinGroups, List.filter_append, hg, List.flatten_cons]
      rw [List.filter_cons_of_neg (by simp), ih1]
      rfl

theorem flatten_digits (gs : List (List Char))
    (h : ∀ g ∈ gs, ∀ c ∈ g, c.isDigit = true) : ∀ c ∈ gs.flatten, c.isDigit = true := by
  intro c hc
  obtain ⟨g, hg, hcg⟩ := List.mem_flatten.mp hc
  exact h g hg c hcg

theorem flatten_ne_nil (gs : List (List Char)) (h : DigitGroups gs) : gs.flatten ≠ [] := by
  obtain ⟨hne, hg⟩ := h
  cases gs with
  | nil => exact absurd rfl hne
  | cons g rest =>
    have := (hg g (List.mem_cons_self _ _)).1
    cases g with
    | nil => exact absurd rfl this
    | cons c t => simp

theorem joinGroups_last (gs : List (List Char)) (h : DigitGroups gs) :
    ∃ y d, joinGroups gs = y ++ [d] ∧ d.isDigit = true := by
  obtain ⟨hne, hg⟩ := h
  induction gs with
  | nil => exact absurd rfl hne
  | cons g rest ih =>
    cases rest with
    | nil =>
      obtain ⟨hgne, hgd⟩ := hg g (List.mem_cons_self _ _)
      refine ⟨g.dropLast, g.getLast hgne, ?_, hgd _ (List.getLast_mem hgne)⟩
      simp [joinGroups, List.dropLast_append_getLast]
    | cons g2 gs =>
      obtain ⟨y, d, hy, hd⟩ := ih (by simp) (fun g1 hg1 => hg g1 (List.mem_cons_of_mem _ hg1))
      refine ⟨g ++ ',' :: y, d, ?_, hd⟩
      simp [joinGroups, hy]

theorem digitChar_spec : ∀ m : Fin 10,
    (Char.ofNat (48 + m.val)).isDigit = true ∧ digitVal (Char.ofNat (48 + m.val)) = m.val := by
  decide

theorem decimalFrom_append (n : Nat) (a b : List Char) :
    decimalFrom n (a ++ b) = decimalFrom (decimalFrom n a) b := by
  unfold decimalFrom
  rw [List.foldl_append]

theorem formatDigits_spec (fuel : Nat) : ∀ (u : Nat) (acc : List Char), u < fuel →
    ∃ ds : List Char, formatDigits fuel u acc = ds ++ acc ∧ ds ≠ [] ∧
      (∀ c ∈ ds, c.isDigit = true) ∧ decimalValue ds = u := by
  induction fuel with
  | zero => intro u acc h; exact absurd h (Nat.not_lt_zero _)
  | succ fuel ih =>
    intro u acc hu
    have hm : u % 10 < 10 := Nat.mod_lt _ (by norm_num)
    obtain ⟨hdig, hval⟩ := digitChar_spec ⟨u % 10, hm⟩
    simp only at hdig hval
    unfold formatDigits
    by_cases h0 : u / 10 = 0
    · simp only [h0, if_true]
      refine ⟨[Char.ofNat (48 + u % 10)], rfl, by simp, ?_, ?_⟩
      · intro c hc
        rw [List.mem_singleton.mp hc]
        exact hdig
      · show 0 * 10 + digitVal (Char.ofNat (48 + u % 10)) = u
        rw [hval]
        omega
    · simp only [h0, if_false]
      obtain ⟨ds, hds, _, hd, hv⟩ := ih (u / 10) (Char.ofNat (48 + u % 10) :: acc) (by omega)
      refine ⟨ds ++ [Char.ofNat (48 + u % 10)], ?_, by simp, ?_, ?_⟩
      · rw [hds, List.append_assoc]
        rfl
      · intro c hc
        rcases List.mem_append.mp hc with h | h
        · exact hd c h
        · rw [List.mem_singleton.mp h]
          exact hdig
      · unfold decimalValue at hv ⊢
        rw [decimalFrom_append, hv]
        show u / 10 * 10 + digitVal (Char.ofNat (48 + u % 10)) = u
        rw [hval]
        omega

theorem Itoa_nonneg (n : Int) (h : 0 ≤ n) :
    Itoa n ≠ [] ∧ (∀ c ∈ Itoa n, c.isDigit = true) ∧ ((decimalValue (Itoa n) : Nat) : Int) = n := by
  obtain ⟨ds, hds, hne, hd, hv⟩ := formatDigits_spec (n.natAbs + 1) n.natAbs [] (by omega)
  have e : Itoa n = ds := by
    unfold Itoa
    rw [if_neg (by omega), hds, List.append_nil]
  rw [e]
  refine ⟨hne, hd, ?_⟩
  rw [hv]
  omega

theorem Itoa_neg (n : Int) (h : n < 0) :
    ∃ ds, Itoa n = '-' :: ds ∧ ds ≠ [] ∧ (∀ c ∈ ds, c.isDigit = true) ∧
      -((decimalValue ds : Nat) : Int) = n := by
  obtain ⟨ds, hds, hne, hd, hv⟩ := formatDigits_spec (n.natAbs + 1) n.natAbs [] (by omega)
  refine ⟨ds, ?_, hne, hd, ?_⟩
  · unfold Itoa
    rw [if_pos h, hds, List.append_nil]
  · rw [hv]
    omega

theorem Atoi_Itoa (n : Int) (hlo : -(2 ^ 63 : Int) ≤ n) (hhi : n < 2 ^ 63) :
    Atoi (Itoa n) = (n, none) := by
  by_cases h : 0 ≤ n
  · obtain ⟨hne, hd, hv⟩ := Itoa_nonneg n h
    rw [Atoi_digits _ hne hd, if_pos (by omega), hv]
  · obtain ⟨ds, e, hne, hd, hv⟩ := Itoa_neg n (by omega)
    rw [e, Atoi_neg_digits ds hne hd (by omega), hv]

/-- Every character of a rendering is a digit or the minus sign. -/
theorem Itoa_chars (n : Int) : ∀ c ∈ Itoa n, c.isDigit = true ∨ c = '-' := by
  intro c hc
  by_cases h : 0 ≤ n
  · exact Or.inl ((Itoa_nonneg n h).2.1 c hc)
  · obtain ⟨ds, e, _, hd, _⟩ := Itoa_neg n (by omega)
    rw [e] at hc
    rcases List.mem_cons.mp hc with h1 | h1
    · exact Or.inr h1
    · exact Or.inl (hd c h1)

theorem signChar_plain {c : Char} (h : c.isDigit = true ∨ c = '-') :
    (c == ',') = false ∧ (c == nbsp) = false ∧ isSpace c = false ∧ (c == '%') = false := by
  rcases h with h | h
  · exact ⟨isDigit_ne h (by decide), isDigit_ne h (by decide), isDigit_not_space h,
      isDigit_ne h (by decide)⟩
  · subst h
    decide

theorem Map_digits (s : List Char) :
    Map (fun r => if '0' ≤ r ∧ r ≤ '9' then some r else none) s = s.filter Char.isDigit := by
  unfold Map
  induction s with
  | nil => rfl
  | cons c t ih =>
    by_cases hc : c.isDigit = true
    · have := (le_iff_isDigit c).mpr hc
      simp [List.filterMap_cons, List.filter_cons, hc, this, ih]
    · have h2 : ¬ ('0' ≤ c ∧ c ≤ '9') := fun h => hc ((le_iff_isDigit c).mp h)
      simp [List.filterMap_cons, List.filter_cons, hc, h2, ih]

theorem filter_digits (s : List Char) : ∀ c ∈ s.filter Char.isDigit, c.isDigit = true :=
  fun _ hc => (List.mem_filter.mp hc).2

theorem cleanedText_eq (s : List Char) :
    TrimSpace (ReplaceAll (ReplaceAll s [','] []) [nbsp] []) = cleanedText s := by
  rw [ReplaceAll_single, ReplaceAll_single]
  unfold cleanedText
  congr 1
  congr 1
  · funext c
    by_cases h : c = nbsp <;> simp [h]
  · congr 1
    funext c
    by_cases h : c = ',' <;> simp [h]

theorem ok_of_Atoi {r : Int × Option NumError} {n : Int} (h : r = (n, none)) :
    (match r with
      | (_, some err) => ((0 : Int), some err)
      | (v, none) => (v, none)) = (n, none) := by
  subst h; rfl

theorem err_of_Atoi {r : Int × Option NumError} {v : Int} {e : NumError}
    (h : r = (v, some e)) :
    (match r with
      | (_, some err) => ((0 : Int), some err)
      | (v, none) => (v, none)) = (0, some e) := by
  subst h; rfl

theorem ParseInt_err (c : List Char)
    (h : c = [] ∨ ∃ ch ∈ dropSign c, ch.isDigit = false) :
    ∃ v e, ParseInt c = (v, some e) := by
  cases c with
  | nil => exact ⟨0, NumError.ErrSyntax, rfl⟩
  | cons a t =>
    have hex : ∃ ch ∈ dropSign (a :: t), ch.isDigit = false := by
      rcases h with h | h
      · cases h
      · exact h
    have hs1 : (if (a == '+') = true then t else if (a == '-') = true then t else a :: t) =
        dropSign (a :: t) := by
      unfold dropSign
      by_cases h1 : a = '+'
      · simp [h1]
      · by_cases h2 : a = '-'
        · simp [h2]
        · simp [h1, h2]
    unfold ParseInt
    simp only [hs1]
    generalize dropSign (a :: t) = s1 at hex
    have hu : ParseUint s1 = (0, some NumError.ErrSyntax) ∨
        ParseUint s1 = (maxUint64, some NumError.ErrRange) := by
      unfold ParseUint
      split
      · left; rfl
      · exact parseUintLoop_err s1 hex 0
    rcases hu with hu | hu
    · rw [hu]
      exact ⟨0, NumError.ErrSyntax, rfl⟩
    · rw [hu]
      simp only
      have hge : maxUint64 ≥ 2 ^ (intSize - 1) := by decide
      have hgt : maxUint64 > 2 ^ (intSize - 1) := by decide
      by_cases hneg : (a == '-') = true
      · simp only [hneg, Bool.not_true, Bool.false_and, Bool.false_eq_true, if_false,
          Bool.true_and, decide_eq_true_eq, hgt, if_true]
        exact ⟨_, _, rfl⟩
      · simp only [hneg, Bool.not_false, Bool.true_and, decide_eq_true_eq, hge, if_true]
        exact ⟨_, _, rfl⟩

theorem Atoi_err (c : List Char)
    (h : c = [] ∨ ∃ ch ∈ dropSign c, ch.isDigit = false) :
    ∃ v e, Atoi c = (v, some e) := by
  unfold Atoi
  by_cases hlen : 0 < byteLen c ∧ byteLen c < 19
  · simp only [hlen, and_self, if_true]
    cases c with
    | nil => exact ⟨0, NumError.ErrSyntax, rfl⟩
    | cons a t =>
      have hex : ∃ ch ∈ dropSign (a :: t), ch.isDigit = false := by
        rcases h with h | h
        · cases h
        · exact h
      have hb : (if (a == '-' || a == '+') = true then t else a :: t) = dropSign (a :: t) := by
        unfold dropSign
        by_cases h1 : a = '+'
        · simp [h1]
        · by_cases h2 : a = '-'
          · simp [h2]
          · simp [h1, h2]
      simp only [hb]
      split
      · exact ⟨0, NumError.ErrSyntax, rfl⟩
      · rw [atoiFast_nondigit _ hex 0]
        exact ⟨0, NumError.ErrSyntax, rfl⟩
  · rw [if_neg hlen]
    exact ParseInt_err c h

theorem ok_inv {r : Int × Option NumError} {n : Int}
    (h : (match r with
      | (_, some err) => ((0 : Int), some err)
      | (v, none) => (v, none)) = (n, none)) : r = (n, none) := by
  obtain ⟨v, e⟩ := r
  cases e with
  | none => exact h
  | some e => simp at h

theorem parsePrice_groups_aux (gs : List (List Char)) (k : Nat) (ws : List Char)
    (hg : DigitGroups gs) (hv : decimalValue gs.flatten < 2 ^ 63)
    (hws : ∀ c ∈ ws, isSpace c = true) :
    parsePrice (joinGroups gs ++ (List.replicate k nbsp ++ ws)) =
      (((decimalValue gs.flatten : Nat) : Int), none) := by
  have hgd : ∀ g ∈ gs, ∀ c ∈ g, c.isDigit = true := fun g h => (hg.2 g h).2
  have hfd := flatten_digits gs hgd
  have e1 : ReplaceAll (joinGroups gs ++ (List.replicate k nbsp ++ ws)) [','] [] =
      gs.flatten ++ (List.replicate k nbsp ++ ws) := by
    rw [ReplaceAll_single, List.filter_append, filter_comma_joinGroups gs hgd]
    congr 1
    rw [List.filter_eq_self]
    intro a ha
    rcases List.mem_append.mp ha with h | h
    · rw [(List.mem_replicate.mp h).2]
      decide
    · rw [isSpace_ne_comma (hws a h)]
      rfl
  have e2 : ReplaceAll (gs.flatten ++ (List.replicate k nbsp ++ ws)) [nbsp] [] =
      [] ++ (gs.flatten ++ ws.filter (fun x => !(x == nbsp))) := by
    rw [ReplaceAll_single, List.filter_append, List.filter_append, List.nil_append]
    have h1 : gs.flatten.filter (fun x => !(x == nbsp)) = gs.flatten := by
      rw [List.filter_eq_self]
      intro a ha
      rw [isDigit_ne (hfd a ha) (by decide)]
      rfl
    have h2 : (List.replicate k nbsp).filter (fun x => !(x == nbsp)) = [] := by
      rw [List.filter_eq_nil_iff]
      intro a ha
      rw [(List.mem_replicate.mp ha).2]
      decide
    rw [h1, h2, List.nil_append]
  have e3 : ∀ x ∈ ws.filter (fun x => !(x == nbsp)), isSpace x = true :=
    fun x hx => hws x (List.mem_filter.mp hx).1
  unfold parsePrice
  simp only
  rw [e1, e2, TrimSpace_spaces_digits_spaces [] _ _ (by simp) hfd e3]
  apply ok_of_Atoi
  rw [Atoi_digits _ (flatten_ne_nil gs hg) hfd, if_pos hv]

theorem TrimRight_price (gs : List (List Char)) (k : Nat) (tail : List Char)
    (hg : DigitGroups gs) (ht : ∀ c ∈ tail, c = ' ' ∨ c = rouble) :
    TrimRight (joinGroups gs ++ List.replicate k nbsp ++ tail) [' ', rouble] =
      joinGroups gs ++ List.replicate k nbsp := by
  unfold TrimRight
  rw [rdropWhile_append_of_pos]
  · obtain ⟨y, d, hy, hd⟩ := joinGroups_last gs hg
    cases k with
    | zero =>
      rw [List.replicate_zero, List.append_nil, hy]
      apply List.rdropWhile_concat_neg
      have h1 := isDigit_ne (x := ' ') hd (by decide)
      have h2 := isDigit_ne (x := rouble) hd (by decide)
      rw [beq_eq_false_iff_ne] at h1 h2
      simp [List.contains_cons, h1, h2]
    | succ k =>
      have : List.replicate (k + 1) nbsp = List.replicate k nbsp ++ [nbsp] := by
        rw [← List.replicate_succ']
      rw [this, ← List.append_assoc]
      apply List.rdropWhile_concat_neg
      decide
  · intro x hx
    rcases ht x hx with h | h <;> subst h <;> decide

theorem TrimRight_percent (ws ds : List Char) (hne : ds ≠ [])
    (hd : ∀ c ∈ ds, c.isDigit = true) : TrimRight (ws ++ ds ++ ['%']) ['%'] = ws ++ ds := by
  unfold TrimRight
  rw [rdropWhile_append_of_pos _ _ _ (by decide)]
  have hl : ds = ds.dropLast ++ [ds.getLast hne] := (List.dropLast_append_getLast hne).symm
  rw [hl, ← List.append_assoc]
  apply List.rdropWhile_concat_neg
  have h1 := isDigit_ne (x := '%') (hd _ (List.getLast_mem hne)) (by decide)
  rw [beq_eq_false_iff_ne] at h1
  simp [List.contains_cons, h1]

theorem parseReviewsCountToInt_eq (s : List Char) :
    parseReviewsCountToInt s =
      if s.filter Char.isDigit = [] then (0, some NumError.ErrSyntax)
      else if decimalValue (s.filter Char.isDigit) < 2 ^ 63 then
        (((decimalValue (s.filter Char.isDigit) : Nat) : Int), none)
      else (0, some NumError.ErrRange) := by
  have hd := filter_digits s
  unfold parseReviewsCountToInt
  simp only
  rw [Map_digits, TrimSpace_of_not_space _ (fun x hx => isDigit_not_space (hd x hx))]
  by_cases h0 : s.filter Char.isDigit = []
  · rw [if_pos h0, h0]
    rfl
  · rw [if_neg h0, Atoi_digits _ h0 hd]
    by_cases hv : decimalValue (s.filter Char.isDigit) < 2 ^ 63
    · rw [if_pos hv, if_pos hv]
    · rw [if_neg hv, if_neg hv]

theorem parsePrice_Itoa (n : Int) (hlo : -(2 ^ 63 : Int) ≤ n) (hhi : n < 2 ^ 63) :
    parsePrice (Itoa n) = (n, none) := by
  have hc := fun c hc => signChar_plain (Itoa_chars n c hc)
  have e1 : ReplaceAll (Itoa n) [','] [] = Itoa n := by
    rw [ReplaceAll_single, List.filter_eq_self]
    intro a ha
    rw [(hc a ha).1]
    rfl
  have e2 : ReplaceAll (Itoa n) [nbsp] [] = Itoa n := by
    rw [ReplaceAll_single, List.filter_eq_self]
    intro a ha
    rw [(hc a ha).2.1]
    rfl
  unfold parsePrice
  simp only
  rw [e1, e2, TrimSpace_of_not_space _ (fun a ha => (hc a ha).2.2.1)]
  exact ok_of_Atoi (Atoi_Itoa n hlo hhi)

theorem parseDiscountToInt_Itoa (n : Int) (hlo : -(2 ^ 63 : Int) ≤ n) (hhi : n < 2 ^ 63) :
    parseDiscountToInt (Itoa n) = (n, none) := by
  have hc := fun c hc => signChar_plain (Itoa_chars n c hc)
  have e1 : TrimRight (Itoa n) ['%'] = Itoa n := by
    unfold TrimRight
    apply rdropWhile_of_neg
    intro x hx
    have := (hc x hx).2.2.2
    rw [beq_eq_false_iff_ne] at this
    simp [List.contains_cons, this]
  unfold parseDiscountToInt
  simp only
  rw [e1, TrimSpace_of_not_space _ (fun a ha => (hc a ha).2.2.1)]
  exact ok_of_Atoi (Atoi_Itoa n hlo hhi)

theorem parseReviewsCountToInt_Itoa (n : Int) (hlo : 0 ≤ n) (hhi : n < 2 ^ 63) :
    parseReviewsCountToInt (Itoa n) = (n, none) := by
  obtain ⟨hne, hd, hv⟩ := Itoa_nonneg n hlo
  have e : (Itoa n).filter Char.isDigit = Itoa n := List.filter_eq_self.mpr hd
  rw [parseReviewsCountToInt_eq, e, if_neg hne, if_pos (by omega), hv]

theorem visits_append (a b : List LoopEvent) : visits (a ++ b) = visits a ++ visits b := by
  induction a with
  | nil => rfl
  | cons x t ih =>
    cases x <;> simp [visits, ih]

theorem visits_pageLoopFrom (visitFails : List Char → Bool) (n : Nat) :
    ∀ fuel page, n + 1 ≤ fuel + page →
      visits (pageLoopFrom visitFails n fuel page) =
        (List.range' page (n + 1 - page)).map pageURL := by
  intro fuel
  induction fuel with
  | zero =>
    intro page h
    have : n + 1 - page = 0 := by omega
    rw [this]
    rfl
  | succ fuel ih =>
    intro page h
    unfold pageLoopFrom
    by_cases hp : page ≤ n
    · rw [if_pos hp]
      have e : n + 1 - page = (n + 1 - (page + 1)) + 1 := by omega
      rw [e, List.range'_succ, List.map_cons, ← ih (page + 1) (by omega)]
      simp only [visits_append]
      cases visitFails (pageURL page) <;> simp [visits]
    · rw [if_neg hp]
      have : n + 1 - page = 0 := by omega
      rw [this]
      rfl

theorem pageURL_injective : Function.Injective pageURL := by
  intro a b h
  unfold pageURL at h
  have h1 := List.append_cancel_left h
  have ha := (Itoa_nonneg (a : Int) (by omega)).2.2
  have hb := (Itoa_nonneg (b : Int) (by omega)).2.2
  rw [h1] at ha
  have : (a : Int) = (b : Int) := ha.symm.trans hb
  omega

theorem formatDigits_eq_toDigitsCore (fuel : Nat) :
    ∀ (u : Nat) (acc : List Char), formatDigits fuel u acc = Nat.toDigitsCore 10 fuel u acc := by
  induction fuel with
  | zero => intro u acc; rfl
  | succ fuel ih =>
    intro u acc
    have hm : u % 10 < 10 := Nat.mod_lt _ (by norm_num)
    have hc : ∀ m : Fin 10, Char.ofNat (48 + m.val) = Nat.digitChar m.val := by decide
    have hc1 := hc ⟨u % 10, hm⟩
    simp only at hc1
    unfold formatDigits Nat.toDigitsCore
    simp only [hc1, ih]

theorem Itoa_natCast (k : Nat) : Itoa (k : Int) = Nat.toDigits 10 k := by
  unfold Itoa Nat.toDigits
  rw [if_neg (by omega), formatDigits_eq_toDigitsCore]
  rfl

theorem visits_pageLoop (visitFails : List Char → Bool) (n : Nat) :
    visits (pageLoop visitFails n) = (List.range' 1 n).map pageURL := by
  have h := visits_pageLoopFrom visitFails n (n + 1) 1 (by omega)
  have e : n + 1 - 1 = n := by omega
  rw [e] at h
  exact h

theorem visits_pageLoop_literal (visitFails : List Char → Bool) (n : Nat) :
    visits (pageLoop visitFails n) =
      (List.range' 1 n).map (fun k =>
        "https://kari.com/catalog/muzhchinam/muzhskaya-obuv/?page=".toList ++
          Nat.toDigits 10 k) := by
  rw [visits_pageLoop]
  apply List.map_congr_left
  intro k _
  unfold pageURL
  rw [Itoa_natCast]

/-! ## The claims -/

/-- Claim C1, amended: `parsePrice` does not remove the currency marker (the item
callback removes it before the call).  For every text made of one or more
comma-separated groups of decimal digits denoting a value below `2 ^ 63`, followed
by zero or more U+00A0 and then by any white space, `parsePrice` returns without
error the integer denoted by the digits with the separators removed. -/
theorem parsePrice_groups (gs : List (List Char)) (k : Nat) (ws : List Char)
    (hg : DigitGroups gs) (hv : decimalValue gs.flatten < 2 ^ 63)
    (hws : ∀ c ∈ ws, isSpace c = true) :
    parsePrice (joinGroups gs ++ List.replicate k nbsp ++ ws) =
      (((decimalValue gs.flatten : Nat) : Int), none) := by
  rw [List.append_assoc]
  exact parsePrice_groups_aux gs k ws hg hv hws

/-- Claim C1, instance of the amended statement: `12,500` followed by one U+00A0
and one space parses to 12500. -/
theorem parsePrice_groups_witness :
    DigitGroups ["12".toList, "500".toList] ∧
    decimalValue ["12".toList, "500".toList].flatten < 2 ^ 63 ∧
    (∀ c ∈ [' '], isSpace c = true) ∧
    parsePrice ("12,500".toList ++ [nbsp, ' ']) = (12500, none) :=
  ⟨by unfold DigitGroups; decide, by decide, by decide,
    parsePrice_groups ["12".toList, "500".toList] 1 [' '] (by unfold DigitGroups; decide)
      (by decide) (by decide)⟩

/-- Claim C1 as stated fails: on `12,500 ₽`, digits, a space and the currency
marker, `parsePrice` returns the value 0 with a syntax error, not 12500. -/
theorem parsePrice_marker_counterexample :
    parsePrice "12,500 ₽".toList = (0, some NumError.ErrSyntax) ∧
    parsePrice "12,500 ₽".toList ≠ (12500, none) := by
  decide

/-- Claim C2, amended: for every text made of leading white space, one or more
decimal digits denoting a value below `2 ^ 63`, and a `%` sign that ends the text,
`parseDiscountToInt` returns without error the integer denoted by the digits. -/
theorem parseDiscountToInt_percent (ws ds : List Char)
    (hws : ∀ c ∈ ws, isSpace c = true) (hne : ds ≠ [])
    (hd : ∀ c ∈ ds, c.isDigit = true) (hv : decimalValue ds < 2 ^ 63) :
    parseDiscountToInt (ws ++ ds ++ ['%']) = (((decimalValue ds : Nat) : Int), none) := by
  unfold parseDiscountToInt
  simp only
  rw [TrimRight_percent ws ds hne hd]
  have e2 := TrimSpace_spaces_digits_spaces ws ds [] hws hd (by simp)
  rw [List.append_nil] at e2
  rw [e2]
  apply ok_of_Atoi
  rw [Atoi_digits _ hne hd, if_pos hv]

/-- Claim C2, instance of the amended statement: a space, `20` and `%` parse
to 20. -/
theorem parseDiscountToInt_percent_witness :
    (∀ c ∈ [' '], isSpace c = true) ∧ "20".toList ≠ [] ∧
    (∀ c ∈ "20".toList, c.isDigit = true) ∧ decimalValue "20".toList < 2 ^ 63 ∧
    parseDiscountToInt " 20%".toList = (20, none) :=
  ⟨by decide, by decide, by decide, by decide,
    parseDiscountToInt_percent [' '] "20".toList (by decide) (by decide) (by decide) (by decide)⟩

/-- Claim C2 as stated fails: on a space, `20%` and a space, the trailing space
keeps `TrimRight` from reaching the `%` and the result is the value 0 with a
syntax error, not 20; and on the digits of `2 ^ 63` followed by `%` the result is a
range error. -/
theorem parseDiscountToInt_counterexample :
    parseDiscountToInt " 20% ".toList = (0, some NumError.ErrSyntax) ∧
    parseDiscountToInt " 20% ".toList ≠ (20, none) ∧
    parseDiscountToInt "9223372036854775808%".toList = (0, some NumError.ErrRange) := by
  decide

/-- Claim C3, amended: with `d` the decimal digits of the input in their order,
`parseReviewsCountToInt` returns a syntax error when `d` is empty, the integer
denoted by `d` without error when that integer is below `2 ^ 63`, and a range error
otherwise. -/
theorem parseReviewsCountToInt_spec (s : List Char) :
    parseReviewsCountToInt s =
      if s.filter Char.isDigit = [] then (0, some NumError.ErrSyntax)
      else if decimalValue (s.filter Char.isDigit) < 2 ^ 63 then
        (((decimalValue (s.filter Char.isDigit) : Nat) : Int), none)
      else (0, some NumError.ErrRange) :=
  parseReviewsCountToInt_eq s

/-- Claim C3 as stated fails: the digits of `2 ^ 63` are a non-empty digit
sequence on which `parseReviewsCountToInt` returns a range error. -/
theorem parseReviewsCountToInt_counterexample :
    "9223372036854775808".toList.filter Char.isDigit ≠ [] ∧
    parseReviewsCountToInt "9223372036854775808".toList = (0, some NumError.ErrRange) ∧
    (parseReviewsCountToInt "9223372036854775808".toList).2 ≠ none := by
  decide

/-- The examples of claim C3 that hold: no digit gives a syntax error, and the
digits are read in order whatever stands between them. -/
theorem parseReviewsCountToInt_examples :
    parseReviewsCountToInt "no reviews".toList = (0, some NumError.ErrSyntax) ∧
    parseReviewsCountToInt "123 reviews".toList = (123, none) ∧
    parseReviewsCountToInt "1.2K".toList = (12, none) := by
  decide

/-- Claim C4: when the cleaned price text (commas and U+00A0 deleted, white space
trimmed) is empty or holds, after one optional leading sign, a character that is
not a decimal digit, `parsePrice` returns the value 0 together with an error. -/
theorem parsePrice_malformed (s : List Char)
    (h : cleanedText s = [] ∨ ∃ ch ∈ dropSign (cleanedText s), ch.isDigit = false) :
    ∃ e, parsePrice s = (0, some e) := by
  obtain ⟨v, e, hve⟩ := Atoi_err (cleanedText s) h
  refine ⟨e, ?_⟩
  unfold parsePrice
  simp only
  rw [cleanedText_eq]
  exact err_of_Atoi hve

/-- Claim C4 at `-1,2x`, whose cleaned text `-12x` holds the non-digit `x` after
the sign, and at the empty text. -/
theorem parsePrice_malformed_witness :
    ((cleanedText "-1,2x".toList = [] ∨
        ∃ ch ∈ dropSign (cleanedText "-1,2x".toList), ch.isDigit = false) ∧
      ∃ e, parsePrice "-1,2x".toList = (0, some e)) ∧
    ((cleanedText [] = [] ∨ ∃ ch ∈ dropSign (cleanedText []), ch.isDigit = false) ∧
      ∃ e, parsePrice [] = (0, some e)) :=
  ⟨⟨by decide, parsePrice_malformed "-1,2x".toList (by decide)⟩,
    ⟨by decide, parsePrice_malformed [] (by decide)⟩⟩

/-- Claim C5: whenever one of the three field parsers succeeds on a text with the
value `n`, it also succeeds on the decimal rendering of `n`, with the value `n`. -/
theorem parsers_idempotent (s : List Char) (n : Int) :
    (parsePrice s = (n, none) → parsePrice (Itoa n) = (n, none)) ∧
    (parseDiscountToInt s = (n, none) → parseDiscountToInt (Itoa n) = (n, none)) ∧
    (parseReviewsCountToInt s = (n, none) → parseReviewsCountToInt (Itoa n) = (n, none)) := by
  refine ⟨?_, ?_, ?_⟩
  · intro h
    unfold parsePrice at h
    have hr := Atoi_ok_range _ n (ok_inv h)
    exact parsePrice_Itoa n hr.1 hr.2
  · intro h
    unfold parseDiscountToInt at h
    have hr := Atoi_ok_range _ n (ok_inv h)
    exact parseDiscountToInt_Itoa n hr.1 hr.2
  · intro h
    rw [parseReviewsCountToInt_eq] at h
    split at h
    · simp at h
    · split at h
      · rename_i hv
        simp only [Prod.mk.injEq, and_true] at h
        exact parseReviewsCountToInt_Itoa n (by omega) (by omega)
      · simp at h

/-- Claim C5 at one successful input of each parser: `-12,500` for `parsePrice`,
a space and `20%` for `parseDiscountToInt`, `1.2K` for `parseReviewsCountToInt`. -/
theorem parsers_idempotent_witness :
    (parsePrice "-12,500".toList = (-12500, none) ∧
      parsePrice (Itoa (-12500)) = (-12500, none)) ∧
    (parseDiscountToInt " 20%".toList = (20, none) ∧
      parseDiscountToInt (Itoa 20) = (20, none)) ∧
    (parseReviewsCountToInt "1.2K".toList = (12, none) ∧
      parseReviewsCountToInt (Itoa 12) = (12, none)) :=
  ⟨⟨by decide, (parsers_idempotent "-12,500".toList (-12500)).1 (by decide)⟩,
    ⟨by decide, (parsers_idempotent " 20%".toList 20).2.1 (by decide)⟩,
    ⟨by decide, (parsers_idempotent "1.2K".toList 12).2.2 (by decide)⟩⟩

/-- Claim C6: the item callback hands a document to the store exactly when all
four numeric fields parse; when one of them does not, nothing is handed to the
store and the log receives exactly one line, the failure of the first field that
does not parse in the order original price, discount, discounted price, reviews
count. -/
theorem extraction_all_or_nothing (e : HTMLElement) (insertFails : Bool) :
    ((inserts (onItem e insertFails)).length = 1 ↔ allParse e) ∧
    (¬ allParse e →
      inserts (onItem e insertFails) = [] ∧
      ∃ format err, logs (onItem e insertFails) = [Event.logPrintf format err] ∧
        firstFailure e = some (format, err)) := by
  unfold onItem itemWorker allParse firstFailure fieldResults
  simp only
  rcases parsePrice (TrimRight e.originalPrice [' ', rouble]) with ⟨v1, _ | e1⟩ <;>
  rcases parseDiscountToInt e.discount with ⟨v2, _ | e2⟩ <;>
  rcases parsePrice (TrimRight e.discountedPrice [' ', rouble]) with ⟨v3, _ | e3⟩ <;>
  rcases parseReviewsCountToInt e.reviewsCount with ⟨v4, _ | e4⟩ <;>
  cases insertFails <;>
  simp [inserts, logs, List.findSome?]

/-- Claim C6 at the item of the end-to-end scenario whose discounted price does
not parse: no insert, one log line, and at the well-formed item: one insert. -/
theorem extraction_all_or_nothing_witness :
    (¬ allParse brokenItem ∧
      inserts (onItem brokenItem false) = [] ∧
      ∃ format err, logs (onItem brokenItem false) = [Event.logPrintf format err] ∧
        firstFailure brokenItem = some (format, err)) ∧
    (allParse acmeItem ∧ (inserts (onItem acmeItem false)).length = 1) :=
  ⟨⟨by decide, (extraction_all_or_nothing brokenItem false).2 (by decide)⟩,
    ⟨by decide, (extraction_all_or_nothing acmeItem false).1.mpr (by decide)⟩⟩

/-- Claim C7 fails on the code: for the well-formed item of the end-to-end
scenario the document handed to the store carries the raw texts `10%` and `42`
under `discount` and `reviews_count`, not the parsed integers 10 and 42; the two
prices are the parsed integers 5000 and 4500. -/
theorem acme_inserted_document :
    inserts (onItem acmeItem false) =
      [{ brand := Value.str "Acme".toList
         name := Value.str "Runner X".toList
         price :=
           { original_price := Value.int 5000
             discount := Value.str "10%".toList
             discounted_price := Value.int 4500 }
         reviews_count := Value.str "42".toList
         promotions := Value.strs ["Sale".toList] }] ∧
    inserts (onItem acmeItem false) ≠
      [{ brand := Value.str "Acme".toList
         name := Value.str "Runner X".toList
         price :=
           { original_price := Value.int 5000
             discount := Value.int 10
             discounted_price := Value.int 4500 }
         reviews_count := Value.int 42
         promotions := Value.strs ["Sale".toList] }] := by
  decide

/-- Claim C8: for every page count `n` and whatever the outcome of each fetch, the
page loop calls `Visit` on exactly the URLs made of the catalogue base, `?page=`
and the decimal digits of `k`, for `k` = 1, 2, ..., `n`, in this order and each
once; with `n = 0` it calls `Visit` on nothing, and with `n = 3` on the URLs
ending in `?page=1`, `?page=2`, `?page=3`; the last URL visited for the page count
172 of `main` ends in `?page=172`. -/
theorem page_loop_visits (visitFails : List Char → Bool) (n : Nat) :
    visits (pageLoop visitFails n) =
      (List.range' 1 n).map (fun k =>
        "https://kari.com/catalog/muzhchinam/muzhskaya-obuv/?page=".toList ++
          Nat.toDigits 10 k) ∧
    (visits (pageLoop visitFails n)).Nodup ∧
    visits (pageLoop visitFails 0) = [] ∧
    visits (pageLoop visitFails 3) =
      ["https://kari.com/catalog/muzhchinam/muzhskaya-obuv/?page=1".toList,
        "https://kari.com/catalog/muzhchinam/muzhskaya-obuv/?page=2".toList,
        "https://kari.com/catalog/muzhchinam/muzhskaya-obuv/?page=3".toList] ∧
    (visits (pageLoop visitFails totalPages)).getLast? =
      some "https://kari.com/catalog/muzhchinam/muzhskaya-obuv/?page=172".toList := by
  refine ⟨visits_pageLoop_literal visitFails n, ?_, rfl, ?_, ?_⟩
  · rw [visits_pageLoop visitFails n]
    exact (List.nodup_range' 1 n).map pageURL_injective
  · rw [visits_pageLoop_literal visitFails 3]
    decide
  · have e : List.range' 1 totalPages = List.range' 1 171 ++ [172] :=
      List.range'_concat 1 171
    rw [visits_pageLoop_literal visitFails totalPages, e, List.map_append, List.map_singleton,
      List.getLast?_concat]
    decide

/-- Claim C9 fails on the code: after a successful `initMongoDB` the package
variable `client` is still nil, so `main` calls `Disconnect` on a nil handle, while
`shoesCollection` belongs to the connected client that was local to
`initMongoDB`. -/
theorem initMongoDB_client_nil :
    initMongoDB false false zeroGlobals =
      some { client := none,
             shoesCollection := some
               { client := { uri := "mongodb://localhost:27017".toList, connected := true },
                 database := "shoe_shop".toList, name := "shoes".toList } } ∧
    (initMongoDB false false zeroGlobals).map disconnectReceiver = some none := by
  decide

/-- Claim C10: for every price text made of one or more comma-separated groups of
decimal digits denoting a value that fits a signed 64-bit integer, followed by
zero or more U+00A0 and then by any run of spaces and rouble signs, `TrimRight`
with the cutset of the item callback followed by `parsePrice` returns without
error the integer denoted by the digits. -/
theorem price_path (gs : List (List Char)) (k : Nat) (tail : List Char)
    (hg : DigitGroups gs) (hv : decimalValue gs.flatten ≤ 2 ^ 63 - 1)
    (ht : ∀ c ∈ tail, c = ' ' ∨ c = rouble) :
    parsePrice (TrimRight (joinGroups gs ++ List.replicate k nbsp ++ tail) [' ', rouble]) =
      (((decimalValue gs.flatten : Nat) : Int), none) := by
  rw [TrimRight_price gs k tail hg ht]
  have := parsePrice_groups_aux gs k [] hg (by omega) (by simp)
  rw [List.append_nil] at this
  exact this

/-- Claim C10 at its two examples: `5,000 ₽` gives 5000, and `12,500` followed by
U+00A0 and the rouble sign gives 12500. -/
theorem price_path_witness :
    (DigitGroups ["5".toList, "000".toList] ∧
      decimalValue ["5".toList, "000".toList].flatten ≤ 2 ^ 63 - 1 ∧
      (∀ c ∈ " ₽".toList, c = ' ' ∨ c = rouble) ∧
      parsePrice (TrimRight "5,000 ₽".toList " ₽".toList) = (5000, none)) ∧
    (DigitGroups ["12".toList, "500".toList] ∧
      decimalValue ["12".toList, "500".toList].flatten ≤ 2 ^ 63 - 1 ∧
      (∀ c ∈ "₽".toList, c = ' ' ∨ c = rouble) ∧
      parsePrice (TrimRight ("12,500".toList ++ [nbsp, rouble]) " ₽".toList) =
        (12500, none)) :=
  ⟨⟨by unfold DigitGroups; decide, by decide, by decide,
      price_path ["5".toList, "000".toList] 0 " ₽".toList (by unfold DigitGroups; decide)
        (by decide) (by decide)⟩,
    ⟨by unfold DigitGroups; decide, by decide, by decide,
      price_path ["12".toList, "500".toList] 1 "₽".toList (by unfold DigitGroups; decide)
        (by decide) (by decide)⟩⟩

end Kari
